import Mathlib

/-!
Verification of the gmmmml mixture-search core (src/gmmmml/mixture_search.py,
src/gmmmml/gmm.py).

Shallow embedding conventions:
* IEEE floating point numbers are modelled as real numbers (`ℝ`); tolerances
  stated in the specification ("within 1e-9") are proved from exact equalities.
* numpy arrays along the component axis (which the code grows and shrinks with
  `np.vstack`, `np.hstack`, `np.delete` and index assignment) are Lean `List`s;
  the inner data axes of fixed size `N` (points) and `D` (dimensions) are
  modelled as functions `ℕ → ℝ` with the sizes passed explicitly, exactly as the
  source reads them from `y.shape`.
* Code that raises (`ValueError`, out-of-bounds index assignment) is modelled
  with `Option`, `none` standing for the raised error.
* Only the `covariance_type="full"` code paths are embedded: the configuration
  validator of the source accepts no other value (`available = ("full",)`).
-/

open scoped Classical

noncomputable section

namespace Gmmmml

/-- A data-point-indexed (or dimension-indexed) vector of floats. -/
abbrev Vec := ℕ → ℝ

/-- A matrix of floats indexed by two `ℕ` axes. -/
abbrev Mat := ℕ → ℕ → ℝ

/-- `np.sum(r[:N])`: sum of the first `N` entries of a vector. -/
def vsum (N : ℕ) (r : Vec) : ℝ := ∑ i in Finset.range N, r i

/-- `_total_parameters(K, D)` from mixture_search.py:
`Q = 0.5*D*(D+3)*K + K - 1`. -/
def total_parameters (K D : ℕ) : ℝ := 0.5 * D * (D + 3) * K + (K : ℝ) - 1

/-- The itemized message-length contributions returned by
`_mixture_message_length` (its `I_parts` dictionary together with the total
`I`). -/
structure MessageLengthParts where
  I_mixtures : ℝ
  I_parameters : ℝ
  I_data : ℝ
  I_slogdetcovs : ℝ
  I_weights : ℝ
  I : ℝ

/-- `_mixture_message_length(K, N, D, log_likelihood, slogdetcov, weights,
yerr)` from mixture_search.py, scalar path (the source additionally broadcasts
over an array of `K` values; the broadcasting and its size checks are not
needed by any claim and are not modelled).  `weights = none` models the python
`weights=None` default, in which case `-K*log(K)` is substituted for
`sum(log(w))`. -/
def mixture_message_length (K N D : ℕ) (log_likelihood slogdetcov : ℝ)
    (weights : Option (List ℝ)) (yerr : ℝ) : MessageLengthParts :=
  let slogw : ℝ := match weights with
    | some w => (w.map Real.log).sum
    | none => -(K : ℝ) * Real.log K
  let Q := total_parameters K D
  let I_mixtures := (K : ℝ) * Real.log 2 * (1 - (D : ℝ) / 2)
      + Real.log (Real.Gamma K)
      + 0.25 * (2 * ((K : ℝ) - 1) + (K : ℝ) * D * (D + 3)) * Real.log N
  let I_parameters := 0.5 * Real.log (Q * Real.pi) - 0.5 * Q * Real.log (2 * Real.pi)
  let I_data := -log_likelihood - (D : ℝ) * N * Real.log yerr
  let I_slogdetcovs := -0.5 * ((D : ℝ) + 2) * slogdetcov
  let I_weights := (0.25 * (D : ℝ) * ((D : ℝ) + 3) - 0.5) * slogw
  ⟨I_mixtures, I_parameters, I_data, I_slogdetcovs, I_weights,
    I_mixtures + I_parameters + I_data + I_slogdetcovs + I_weights⟩

/-- The configuration recorded by a successfully constructed
`GaussianMixture`. -/
structure GMConfig where
  covariance_type : String
  covariance_regularization : ℝ
  threshold : ℝ
  max_em_iterations : ℤ

/-- Python `str.lower()` restricted to the ASCII range, as applied to the
`covariance_type` argument. -/
def pyLower (s : String) : String := ⟨s.data.map Char.toLower⟩

/-- Python `str.strip()`: drop leading and trailing whitespace. -/
def pyStrip (s : String) : String :=
  ⟨((s.data.dropWhile Char.isWhitespace).reverse.dropWhile Char.isWhitespace).reverse⟩

/-- `GaussianMixture.__init__` from gmm.py / mixture_search.py (both copies are
identical in their validation logic).  `none` models a raised `ValueError`.
Note that the source sets `available = ("full",)`, so `"diag"` is rejected even
though the docstring lists it. -/
def gaussianMixtureInit (covariance_type : String)
    (covariance_regularization : ℝ) (threshold : ℝ)
    (max_em_iterations : ℤ) : Option GMConfig :=
  let available : List String := ["full"]
  let ct := pyLower (pyStrip covariance_type)
  if ct ∉ available then none
  else if 0 > covariance_regularization then none
  else if 0 ≥ threshold then none
  else if 1 > max_em_iterations then none
  else some ⟨ct, covariance_regularization, threshold, max_em_iterations⟩

/-- `_estimate_covariance_matrix_full(y, responsibility, mean,
covariance_regularization)`: per component `m`,
`np.dot(rm * diff.T, diff) / denominator + covariance_regularization * I`
where `diff = y - mean[m]` and `denominator = nm - 1 if nm > 1 else nm`.
The per-component iteration `zip(mean, responsibility, membership)` is the
list zip. -/
def estimate_covariance_matrix_full (y : Mat) (N : ℕ) (mean : List Vec)
    (responsibility : List Vec) (covariance_regularization : ℝ) : List Mat :=
  (mean.zip responsibility).map fun mr =>
    let nm := vsum N mr.2
    let denominator := if nm > 1 then nm - 1 else nm
    fun i j =>
      (∑ p in Finset.range N, mr.2 p * (y p i - mr.1 i) * (y p j - mr.1 j))
          / denominator
        + covariance_regularization * (if i = j then 1 else 0)

/-- Modelled from the spec's words, for comparison with
`estimate_covariance_matrix_full` (refinement check for claim C8): identical
except that the divisor is the literal
`max(effective_membership[m] - 1, effective_membership[m])` that the spec
writes. -/
def estimate_covariance_matrix_full_specMax (y : Mat) (N : ℕ) (mean : List Vec)
    (responsibility : List Vec) (covariance_regularization : ℝ) : List Mat :=
  (mean.zip responsibility).map fun mr =>
    let nm := vsum N mr.2
    let denominator := max (nm - 1) nm
    fun i j =>
      (∑ p in Finset.range N, mr.2 p * (y p i - mr.1 i) * (y p j - mr.1 j))
          / denominator
        + covariance_regularization * (if i = j then 1 else 0)

/-- One entry of the Cholesky row currently being built.  `prev` holds the
already-computed rows `0 .. i-1` of the lower factor, `acc` the entries
`0 .. j-1` of row `i`; this computes entry `(i, j)` of
`scipy.linalg.cholesky(A, lower=True)` by the standard algorithm. -/
def cholNextEntry (A : Mat) (prev : List (List ℝ)) (acc : List ℝ) : ℝ :=
  let i := prev.length
  let j := acc.length
  if j < i then
    (A i j - ∑ k in Finset.range j, acc.getD k 0 * (prev.getD j []).getD k 0)
      / (prev.getD j []).getD j 0
  else
    Real.sqrt (A i i - ∑ k in Finset.range j, (acc.getD k 0) ^ 2)

/-- Row `prev.length` of the lower Cholesky factor of `A`. -/
def cholRow (A : Mat) (prev : List (List ℝ)) : List ℝ :=
  (List.range (prev.length + 1)).foldl
    (fun acc _ => acc ++ [cholNextEntry A prev acc]) []

/-- All `D` rows of the lower Cholesky factor of `A`. -/
def choleskyRows (A : Mat) (D : ℕ) : List (List ℝ) :=
  (List.range D).foldl (fun prev _ => prev ++ [cholRow A prev]) []

/-- `scipy.linalg.cholesky(A, lower=True)` for a `D × D` matrix, zero above
the diagonal. -/
def cholesky (A : Mat) (D : ℕ) : Mat := fun i j =>
  if j ≤ i then ((choleskyRows A D).getD i []).getD j 0 else 0

/-- Row `prev.length` of `scipy.linalg.solve_triangular(L, np.eye(D),
lower=True)`, i.e. of `L⁻¹`, by forward substitution. -/
def solveTriRow (L : Mat) (D : ℕ) (prev : List (List ℝ)) : List ℝ :=
  let i := prev.length
  (List.range D).map fun j =>
    ((if i = j then 1 else 0)
        - ∑ k in Finset.range i, L i k * (prev.getD k []).getD j 0)
      / L i i

/-- All `D` rows of `scipy.linalg.solve_triangular(L, np.eye(D), lower=True)`. -/
def solveTriRows (L : Mat) (D : ℕ) : List (List ℝ) :=
  (List.range D).foldl (fun prev _ => prev ++ [solveTriRow L D prev]) []

/-- `scipy.linalg.solve_triangular(L, np.eye(D), lower=True)` as a matrix. -/
def solveTriangularEye (L : Mat) (D : ℕ) : Mat := fun i j =>
  ((solveTriRows L D).getD i []).getD j 0

/-- The full branch of `_compute_precision_cholesky` for one component:
`solve_triangular(cholesky(covariance, lower=True), eye(D), lower=True).T`. -/
def precisionCholesky (covariance : Mat) (D : ℕ) : Mat := fun i j =>
  solveTriangularEye (cholesky covariance D) D j i

/-- The full branch of `_compute_log_det_cholesky`: the sum of the logs of the
diagonal entries of one Cholesky factor. -/
def compute_log_det_cholesky (P : Mat) (D : ℕ) : ℝ :=
  ∑ d in Finset.range D, Real.log (P d d)

/-- Entry `(i, k)` of the full branch of
`_estimate_log_gaussian_prob(X, means, precisions_chol, "full")`:
`-0.5 * (D*log(2*pi) + sum_d ((X[i].P_k)_d - (means[k].P_k)_d)^2) + log_det_k`. -/
def estimate_log_gaussian_prob (y : Mat) (D : ℕ) (means : List Vec)
    (precisionsChol : List Mat) (i k : ℕ) : ℝ :=
  let P := precisionsChol.getD k (fun _ _ => 0)
  let mu := means.getD k (fun _ => 0)
  let lp := ∑ d in Finset.range D,
      ((∑ e in Finset.range D, y i e * P e d)
        - ∑ e in Finset.range D, mu e * P e d) ^ 2
  let res := -0.5 * ((D : ℝ) * Real.log (2 * Real.pi) + lp)
      + compute_log_det_cholesky P D
  res

/-- `weighted_log_prob = np.log(weight) + _estimate_log_gaussian_prob(...)`
from `responsibility_matrix`, at data point `i` and component `k`. -/
def weighted_log_prob (y : Mat) (D : ℕ) (mu : List Vec) (cov : List Mat)
    (weight : List ℝ) (i k : ℕ) : ℝ :=
  Real.log (weight.getD k 0)
    + estimate_log_gaussian_prob y D mu (cov.map fun c => precisionCholesky c D) i k

/-- `log_likelihood = scipy.misc.logsumexp(weighted_log_prob, axis=1)` at data
point `i`; the component count is the number of mean rows, as in
`_estimate_log_gaussian_prob`. -/
def log_likelihood_point (y : Mat) (D : ℕ) (mu : List Vec) (cov : List Mat)
    (weight : List ℝ) (i : ℕ) : ℝ :=
  Real.log (∑ k in Finset.range mu.length,
    Real.exp (weighted_log_prob y D mu cov weight i k))

/-- `responsibility_matrix(y, mu, cov, weight, "full", full_output=True)`:
the transposed `np.exp(weighted_log_prob - log_likelihood[:, None])` (one list
entry per component, each a data-point-indexed row) together with the per-point
log-likelihood. -/
def responsibility_matrix (y : Mat) (D : ℕ) (mu : List Vec) (cov : List Mat)
    (weight : List ℝ) : List Vec × Vec :=
  ((List.range mu.length).map fun k => fun i =>
      Real.exp (weighted_log_prob y D mu cov weight i k
        - log_likelihood_point y D mu cov weight i),
    log_likelihood_point y D mu cov weight)

/-- `_maximization(y, mu, cov, weight, responsibility, parent_responsibility)`:
returns `(new_mu, new_cov, new_weight)`.  The `mu` and `cov` arguments only
supply the shapes of the updated arrays in the source (`np.zeros_like`) and do
not influence the returned values. -/
def maximization (y : Mat) (N : ℕ) (covariance_regularization : ℝ)
    (parent_responsibility : Vec) (mu : List Vec) (cov : List Mat)
    (weight : List ℝ) (responsibility : List Vec) :
    List Vec × List Mat × List ℝ :=
  let M := weight.length
  let new_weight := responsibility.map fun r =>
    (vsum N r + 0.5) / ((N : ℝ) + (M : ℝ) / 2)
  let w_responsibility := responsibility.map fun r =>
    fun i => parent_responsibility i * r i
  let new_mu := (List.range M).map fun m =>
    let wr := w_responsibility.getD m (fun _ => 0)
    fun d => (∑ i in Finset.range N, wr i * y i d) / vsum N wr
  let new_cov := estimate_covariance_matrix_full y N new_mu responsibility
      covariance_regularization
  (new_mu, new_cov, new_weight)

/-- Concrete two-point one-dimensional dataset used to exercise the covariance
estimator: `y = [[0], [2]]`. -/
def yC8 : Mat := fun p _ => if p = 0 then 0 else 2

/-- Concrete single-component mean `[[1]]` for the covariance estimator. -/
def meanC8 : List Vec := [fun _ => 1]

/-- Concrete single-component responsibility row `[[1, 1]]`. -/
def respC8 : List Vec := [fun _ => 1]

/-- `np.linalg.slogdet(C)[1] = log(|det C|)` for a `D × D` matrix. -/
def slogdet (C : Mat) (D : ℕ) : ℝ :=
  Real.log |Matrix.det (Matrix.of fun i j : Fin D => C i j)|

/-- The triple returned by `_expectation`: the responsibility matrix, the
per-point log-likelihood, and the message length of the current mixture. -/
structure ExpectationOut where
  responsibility : List Vec
  log_likelihood : Vec
  I : ℝ

/-- `_expectation(y, mu, cov, weight)`: one expectation step.  The message
length is `_mixture_message_length(K, N, D, -nll, slogdetcov, weights=[weight])`
with the source's default `yerr=0.001`. -/
def expectation (y : Mat) (N D : ℕ) (mu : List Vec) (cov : List Mat)
    (weight : List ℝ) : ExpectationOut :=
  let rl := responsibility_matrix y D mu cov weight
  let nll := -(∑ i in Finset.range N, rl.2 i)
  let K := weight.length
  let slogdetcov := (cov.map fun c => slogdet c D).sum
  let ml := mixture_message_length K N D (-nll) slogdetcov (some weight) 0.001
  ⟨rl.1, rl.2, ml.I⟩

/-- The configuration threaded through the EM loop via `**kwargs` in the
source. -/
structure EMConfig where
  threshold : ℝ
  max_em_iterations : ℕ
  covariance_regularization : ℝ

/-- The mixture state `(mu, cov, weight, responsibility)` carried by the EM
loop. -/
structure EMState where
  mu : List Vec
  cov : List Mat
  weight : List ℝ
  responsibility : List Vec

/-- The result of one loop body of `_expectation_maximization`: the state
after the maximization and expectation steps, the summed log-likelihood
`np.sum(ll)` of the new expectation step, and its message length `dl`. -/
structure EMStepOut where
  state : EMState
  lls : ℝ
  dl : ℝ

/-- One pass of the `while True` body of `_expectation_maximization`:
`_maximization` followed by `_expectation`. -/
def emStep (y : Mat) (N D : ℕ) (cfg : EMConfig) (parent_responsibility : Vec)
    (st : EMState) : EMStepOut :=
  let mcw := maximization y N cfg.covariance_regularization
      parent_responsibility st.mu st.cov st.weight st.responsibility
  let e := expectation y N D mcw.1 mcw.2.1 mcw.2.2
  ⟨⟨mcw.1, mcw.2.1, mcw.2.2, e.responsibility⟩,
    ∑ i in Finset.range N, e.log_likelihood i, e.I⟩

/-- The `while True` loop of `_expectation_maximization`.  `prev_ll` is the
summed log-likelihood recorded by the previous expectation step
(`ll_dl[-1][0]`); the loop breaks when the relative change is at most the
threshold or the incremented iteration count reaches the cap.  Returns the
final state, the final iteration count and the final message length. -/
def emLoop (y : Mat) (N D : ℕ) (cfg : EMConfig) (parent_responsibility : Vec)
    (iterations : ℕ) (st : EMState) (prev_ll : ℝ) : EMState × ℕ × ℝ :=
  let out := emStep y N D cfg parent_responsibility st
  let rel := |(out.lls - prev_ll) / prev_ll|
  let iter2 := iterations + 1
  if rel ≤ cfg.threshold ∨ iter2 ≥ cfg.max_em_iterations then
    (out.state, iter2, out.dl)
  else
    emLoop y N D cfg parent_responsibility iter2 out.state out.lls
termination_by cfg.max_em_iterations - iterations
decreasing_by
  rename_i h
  push_neg at h
  omega

/-- The value returned by `_expectation_maximization` together with its
`meta` dictionary: `warnflag = iterations >= max_em_iterations`.  The
iteration count is exposed as well (the source prints it and uses it to set
the flag). -/
structure EMResult where
  mu : List Vec
  cov : List Mat
  weight : List ℝ
  responsibility : List Vec
  warnflag : Bool
  iterations : ℕ
  dl : ℝ

/-- `_expectation_maximization(y, mu, cov, weight, responsibility=None)`:
initial expectation step (whose responsibilities are used only when the
`responsibility` argument is `None`), then the loop, then the metadata.
No error is raised on reaching the iteration cap. -/
def expectation_maximization (y : Mat) (N D : ℕ) (cfg : EMConfig)
    (parent_responsibility : Vec) (mu : List Vec) (cov : List Mat)
    (weight : List ℝ) (responsibility : Option (List Vec)) : EMResult :=
  let e0 := expectation y N D mu cov weight
  let resp := responsibility.getD e0.responsibility
  let fin := emLoop y N D cfg parent_responsibility 1 ⟨mu, cov, weight, resp⟩
      (∑ i in Finset.range N, e0.log_likelihood i)
  ⟨fin.1.mu, fin.1.cov, fin.1.weight, fin.1.responsibility,
    decide (fin.2.1 ≥ cfg.max_em_iterations), fin.2.1, fin.2.2⟩

/-- The relative change in summed log-likelihood computed on the first pass
of the EM loop (`abs((lls - prev_ll)/prev_ll)` with `prev_ll` the summed
log-likelihood of the initial expectation step). -/
def em_first_rel (y : Mat) (N D : ℕ) (cfg : EMConfig)
    (parent_responsibility : Vec) (mu : List Vec) (cov : List Mat)
    (weight : List ℝ) (responsibility : Option (List Vec)) : ℝ :=
  let e0 := expectation y N D mu cov weight
  let resp := responsibility.getD e0.responsibility
  let prev_ll := ∑ i in Finset.range N, e0.log_likelihood i
  let out := emStep y N D cfg parent_responsibility ⟨mu, cov, weight, resp⟩
  |(out.lls - prev_ll) / prev_ll|

/-- The all-zero vector, used as a concrete input. -/
def zeroVec : Vec := fun _ => 0

/-- The all-one vector, used as a concrete input. -/
def vone : Vec := fun _ => 1

/-- The determinant of the leading `D × D` block of an `ℕ`-indexed matrix,
i.e. `np.linalg.det` of the embedded array. -/
def detN (C : Mat) (D : ℕ) : ℝ := Matrix.det (Matrix.of fun i j : Fin D => C i j)

/-- An external `np.linalg.svd` oracle: `svd A = (U, S, V)`.  The numerical
decomposition is performed by LAPACK in the source and is treated as an
opaque parameter; no claim depends on its values. -/
abbrev SvdFun := Mat → Mat × Vec × Mat

/-- The children created by `split_component` before any EM refinement:
means one standard deviation either side of the parent along the dominant
right-singular direction, a hard nearest-mean responsibility assignment,
the covariances estimated from that assignment, and membership-proportional
child weights. -/
structure SplitChildren where
  mu0 : Vec
  mu1 : Vec
  cov0 : Mat
  cov1 : Mat
  w0 : ℝ
  w1 : ℝ
  r0 : Vec
  r1 : Vec

/-- The child system constructed at the top of `split_component`:
`U, S, V = svd(cov[index])`; `child_mu = mu[index] -+ V[0]*sqrt(S[0])`;
hard assignment of each point to the nearer child mean (`np.argmin` breaks
ties towards child 0); child covariances via
`_estimate_covariance_matrix`; child weights proportional to effective
membership. -/
def split_children (svd : SvdFun) (y : Mat) (N D : ℕ)
    (covariance_regularization : ℝ) (mu : List Vec) (cov : List Mat)
    (index : ℕ) : SplitChildren :=
  let usv := svd (cov.getD index (fun _ _ => 0))
  let V0 : Vec := fun d => usv.2.2 0 d
  let S0 := usv.2.1 0
  let pmu := mu.getD index zeroVec
  let cmu0 : Vec := fun d => pmu d - V0 d * Real.sqrt S0
  let cmu1 : Vec := fun d => pmu d + V0 d * Real.sqrt S0
  let dist0 : Vec := fun i => ∑ d in Finset.range D, (y i d - cmu0 d) ^ 2
  let dist1 : Vec := fun i => ∑ d in Finset.range D, (y i d - cmu1 d) ^ 2
  let r0 : Vec := fun i => if dist0 i ≤ dist1 i then 1 else 0
  let r1 : Vec := fun i => if dist0 i ≤ dist1 i then 0 else 1
  let ccov := estimate_covariance_matrix_full y N [cmu0, cmu1] [r0, r1]
      covariance_regularization
  let e0 := vsum N r0
  let e1 := vsum N r1
  ⟨cmu0, cmu1, ccov.getD 0 (fun _ _ => 0), ccov.getD 1 (fun _ _ => 0),
    e0 / (e0 + e1), e1 / (e0 + e1), r0, r1⟩

/-- The `M > 1` splice of `split_component`: child A replaces the parent at
`index`, child B is appended at the end, and the children's weights and
responsibilities are scaled by the parent's. -/
def split_splice (svd : SvdFun) (y : Mat) (N D : ℕ)
    (covariance_regularization : ℝ) (mu : List Vec) (cov : List Mat)
    (weight : List ℝ) (responsibility : List Vec) (index : ℕ) : EMState :=
  let c := split_children svd y N D covariance_regularization mu cov index
  let pw := weight.getD index 0
  let pr := responsibility.getD index zeroVec
  ⟨(mu ++ [c.mu1]).set index c.mu0,
    (cov ++ [c.cov1]).set index c.cov0,
    (weight ++ [pw * c.w1]).set index (pw * c.w0),
    (responsibility ++ [fun i => pr i * c.r1 i]).set index
      (fun i => pr i * c.r0 i)⟩

/-- `split_component(y, mu, cov, weight, responsibility, index)`: when the
mixture has more than one component, splice the two children into the full
`(M+1)`-component mixture and re-run EM over it; when there is exactly one
component, run EM directly on the two-child system with the parent's
responsibility as `parent_responsibility`. -/
def split_component (svd : SvdFun) (y : Mat) (N D : ℕ) (cfg : EMConfig)
    (mu : List Vec) (cov : List Mat) (weight : List ℝ)
    (responsibility : List Vec) (index : ℕ) : EMResult :=
  let c := split_children svd y N D cfg.covariance_regularization mu cov index
  let pr := responsibility.getD index zeroVec
  if 1 < weight.length then
    let st := split_splice svd y N D cfg.covariance_regularization mu cov
        weight responsibility index
    expectation_maximization y N D cfg (fun _ => 1) st.mu st.cov st.weight
      (some st.responsibility)
  else
    expectation_maximization y N D cfg pr [c.mu0, c.mu1] [c.cov0, c.cov1]
      [c.w0, c.w1] (some [c.r0, c.r1])

/-- `np.clip(x, 0, 1)`. -/
def clip01 (x : ℝ) : ℝ := max 0 (min 1 x)

/-- IEEE semantics of
`np.clip(num/den, 0, 1)` followed by `x[~np.isfinite(x)] = 0`, in exact
arithmetic: a zero denominator yields `inf` (clipped to 1) for a positive
numerator, `nan` (zeroed) for a zero numerator, and `-inf` (clipped to 0)
otherwise. -/
def clipZeroDiv (num den : ℝ) : ℝ :=
  if den = 0 then (if num > 0 then 1 else 0) else clip01 (num / den)

/-- The pre-EM state built by `delete_component`: component `index` removed,
the remaining weights renormalized by `1/(1 - weight[index])` and clipped to
`[0, 1]`, the remaining responsibilities renormalized by
`1/(1 - responsibility[index])` elementwise with clipping and zeroing of
non-finite entries.  (The source asserts the renormalized weights finite
rather than zeroing them; for `weight[index] = 1`, which cannot occur for the
positive weights produced by `_maximization`, the assertion would abort.) -/
def delete_prep (mu : List Vec) (cov : List Mat) (weight : List ℝ)
    (responsibility : List Vec) (index : ℕ) : EMState :=
  let parent_weight := weight.getD index 0
  let parent_responsibility := responsibility.getD index zeroVec
  ⟨mu.eraseIdx index,
    cov.eraseIdx index,
    (weight.eraseIdx index).map fun w => clip01 (w / (1 - parent_weight)),
    (responsibility.eraseIdx index).map fun r =>
      fun i => clipZeroDiv (r i) (1 - parent_responsibility i)⟩

/-- `delete_component(y, mu, cov, weight, responsibility, index)`: remove
component `index`, renormalize, and re-run EM on the `(K-1)`-component
mixture. -/
def delete_component (y : Mat) (N D : ℕ) (cfg : EMConfig) (mu : List Vec)
    (cov : List Mat) (weight : List ℝ) (responsibility : List Vec)
    (index : ℕ) : EMResult :=
  let st := delete_prep mu cov weight responsibility index
  expectation_maximization y N D cfg (fun _ => 1) st.mu st.cov st.weight
    (some st.responsibility)

/-- Order on "float with infinity" values as `np.nanargmin` compares them:
`none` stands for the `np.inf` entries of the initialized distance array. -/
def oLE : Option ℝ → Option ℝ → Prop
  | _, none => True
  | none, some _ => False
  | some a, some b => a ≤ b

/-- The minimum of a list of "float with infinity" values (`none` = `inf`,
also returned for the empty list). -/
def minOpt : List (Option ℝ) → Option ℝ
  | [] => none
  | x :: xs => if oLE x (minOpt xs) then x else minOpt xs

/-- `np.nanargmin` over a list of "float with infinity" values: the first
index attaining the minimum (`0` on the empty list, where numpy would raise
instead; the embedding never evaluates it there). -/
def argminInf : List (Option ℝ) → ℕ
  | [] => 0
  | x :: xs => if oLE x (minOpt xs) then 0 else argminInf xs + 1

/-- `kullback_leibler_for_multivariate_normals(mu_a, cov_a, mu_b, cov_b)`,
full-covariance inputs: both covariances are inverted through the `svd`
oracle (`inv = V.T @ diag(S)^-1 @ U.T`), and the returned value is
`0.5*(trace(Ca_inv @ cov_b) + offset.T @ Cb_inv @ offset - D
+ log(det(cov_b)/det(cov_a)))`. -/
def kullback_leibler_mvn (svd : SvdFun) (D : ℕ) (mu_a : Vec) (cov_a : Mat)
    (mu_b : Vec) (cov_b : Mat) : ℝ :=
  let ia := svd cov_a
  let CaInv : Mat := fun i j => ∑ k in Finset.range D, ia.2.2 k i * ia.1 j k / ia.2.1 k
  let ib := svd cov_b
  let CbInv : Mat := fun i j => ∑ k in Finset.range D, ib.2.2 k i * ib.1 j k / ib.2.1 k
  let offset : Vec := fun d => mu_b d - mu_a d
  let res := 0.5 *
    ((∑ i in Finset.range D, ∑ j in Finset.range D, CaInv i j * cov_b j i)
      + (∑ i in Finset.range D, offset i * ∑ j in Finset.range D, CbInv i j * offset j)
      - (D : ℝ)
      + Real.log (detN cov_b D / detN cov_a D))
  res

/-- The Kullback-Leibler distance array built by `merge_component`:
`np.inf * np.ones(K)` (`none`), overwritten for every `m ≠ index` with the
directional divergence from component `index` to component `m`. -/
def merge_dkl (svd : SvdFun) (D : ℕ) (mu : List Vec) (cov : List Mat)
    (weight : List ℝ) (index : ℕ) : List (Option ℝ) :=
  (List.range weight.length).map fun m =>
    if m = index then none
    else some (kullback_leibler_mvn svd D (mu.getD index zeroVec)
        (cov.getD index (fun _ _ => 0)) (mu.getD m zeroVec)
        (cov.getD m (fun _ _ => 0)))

/-- `b_index = np.nanargmin(D_kl)` in `merge_component`. -/
def merge_partner (svd : SvdFun) (D : ℕ) (mu : List Vec) (cov : List Mat)
    (weight : List ℝ) (index : ℕ) : ℕ :=
  argminInf (merge_dkl svd D mu cov weight index)

/-- `l[i] = a` as numpy performs it: `none` models the `IndexError` raised
when `i` is out of bounds. -/
def setChecked {α : Type} (l : List α) (i : ℕ) (a : α) : Option (List α) :=
  if i < l.length then some (l.set i a) else none

/-- The pre-EM state built by `merge_component`: the merged component
(summed weight and responsibilities, re-estimated mean and covariance)
written at the lower of the two indices after deleting the higher one.
`none` models the `IndexError` of the out-of-bounds writes that occur for a
single-component mixture. -/
def merge_prep (svd : SvdFun) (y : Mat) (N D : ℕ)
    (covariance_regularization : ℝ) (mu : List Vec) (cov : List Mat)
    (weight : List ℝ) (responsibility : List Vec) (index : ℕ) :
    Option EMState := do
  let a_index := index
  let b_index := merge_partner svd D mu cov weight index
  let weight_k := weight.getD a_index 0 + weight.getD b_index 0
  let responsibility_k : Vec := fun i =>
    (responsibility.getD a_index zeroVec) i + (responsibility.getD b_index zeroVec) i
  let effective_membership_k := vsum N responsibility_k
  let mu_k : Vec := fun d =>
    (∑ i in Finset.range N, responsibility_k i * y i d) / effective_membership_k
  let cov_k := (estimate_covariance_matrix_full y N [mu_k] [responsibility_k]
      covariance_regularization).getD 0 (fun _ _ => 0)
  let del_index := max a_index b_index
  let keep_index := min a_index b_index
  let m2 ← setChecked (mu.eraseIdx del_index) keep_index mu_k
  let c2 ← setChecked (cov.eraseIdx del_index) keep_index cov_k
  let w2 ← setChecked (weight.eraseIdx del_index) keep_index weight_k
  let r2 ← setChecked (responsibility.eraseIdx del_index) keep_index responsibility_k
  pure ⟨m2, c2, w2, r2⟩

/-- `merge_component(y, mu, cov, weight, responsibility, index)`: merge
component `index` with its Kullback-Leibler-nearest partner, then re-run EM
on the `(K-1)`-component mixture.  `none` models the `IndexError` raised by
the source when the merged parameters are written out of bounds. -/
def merge_component (svd : SvdFun) (y : Mat) (N D : ℕ) (cfg : EMConfig)
    (mu : List Vec) (cov : List Mat) (weight : List ℝ)
    (responsibility : List Vec) (index : ℕ) : Option EMResult :=
  (merge_prep svd y N D cfg.covariance_regularization mu cov weight
      responsibility index).map fun st =>
    expectation_maximization y N D cfg (fun _ => 1) st.mu st.cov st.weight
      (some st.responsibility)

/-- The all-one matrix, used as a concrete input. -/
def matOne : Mat := fun _ _ => 1

/-- The all-zero matrix, used as a concrete input. -/
def yZero : Mat := fun _ _ => 0

/-- A concrete EM configuration (threshold 1, iteration cap 1, no
regularization) used by the witnesses. -/
def cfgW : EMConfig := ⟨1, 1, 0⟩

/-- A concrete EM configuration with iteration cap 3, used by the structural
operator witnesses. -/
def cfgW3 : EMConfig := ⟨1, 3, 0⟩

/-- A trivial SVD oracle used by the witnesses (the claims' statements do not
depend on the oracle's values). -/
def svdTriv : SvdFun := fun _ => (matOne, vone, matOne)

/-! ## Theorems -/

lemma list_sum_map_range (f : ℕ → ℝ) (n : ℕ) :
    ((List.range n).map f).sum = ∑ k in Finset.range n, f k := by
  induction n with
  | zero => simp
  | succ m ih => simp [List.range_succ, Finset.sum_range_succ, ih]

lemma list_sum_vsum_swap (N : ℕ) (l : List Vec) :
    (l.map fun r => vsum N r).sum
      = ∑ i in Finset.range N, (l.map fun r => r i).sum := by
  induction l with
  | nil => simp
  | cons r t ih =>
    simp only [List.map_cons, List.sum_cons]
    rw [ih, Finset.sum_add_distrib, vsum]

lemma list_sum_map_div (l : List Vec) (f : Vec → ℝ) (c : ℝ) :
    (l.map fun x => f x / c).sum = (l.map f).sum / c := by
  induction l with
  | nil => simp
  | cons r t ih => simp [ih, add_div]

lemma list_sum_map_add_half (l : List Vec) (f : Vec → ℝ) :
    (l.map fun x => f x + 0.5).sum = (l.map f).sum + (l.length : ℝ) * 0.5 := by
  induction l with
  | nil => simp
  | cons r t ih =>
    simp [ih]
    ring

/-- Claim C3: for every `K`, `N`, `D`, `log_likelihood` and `sum_log_det_cov`,
the total message length returned by `_mixture_message_length` equals the sum
of the five returned parts, the covariance part equals
`-(D+2)/2 * sum_log_det_cov`, and when `weights` is omitted the sum-log-weights
term is computed with `-K*log(K)` substituted for `sum(log(weight))`. -/
theorem mixture_message_length_spec (K N D : ℕ) (ll sldc yerr : ℝ)
    (weights : Option (List ℝ)) :
    (mixture_message_length K N D ll sldc weights yerr).I
        = (mixture_message_length K N D ll sldc weights yerr).I_mixtures
          + (mixture_message_length K N D ll sldc weights yerr).I_parameters
          + (mixture_message_length K N D ll sldc weights yerr).I_data
          + (mixture_message_length K N D ll sldc weights yerr).I_slogdetcovs
          + (mixture_message_length K N D ll sldc weights yerr).I_weights
      ∧ (mixture_message_length K N D ll sldc weights yerr).I_slogdetcovs
        = -(((D : ℝ) + 2) / 2) * sldc
      ∧ (mixture_message_length K N D ll sldc none yerr).I_weights
        = (0.25 * (D : ℝ) * ((D : ℝ) + 3) - 0.5) * (-(K : ℝ) * Real.log K) := by
  refine ⟨rfl, ?_, rfl⟩
  show -0.5 * ((D : ℝ) + 2) * sldc = -(((D : ℝ) + 2) / 2) * sldc
  ring

lemma emStep_lengths (y : Mat) (N D : ℕ) (cfg : EMConfig) (pr : Vec)
    (st : EMState) (K : ℕ) (hw : st.weight.length = K)
    (hr : st.responsibility.length = K) :
    (emStep y N D cfg pr st).state.weight.length = K
      ∧ (emStep y N D cfg pr st).state.responsibility.length = K
      ∧ (emStep y N D cfg pr st).state.mu.length = K
      ∧ (emStep y N D cfg pr st).state.cov.length = K := by
  refine ⟨?_, ?_, ?_, ?_⟩ <;>
    simp [emStep, maximization, expectation, responsibility_matrix,
      estimate_covariance_matrix_full, hw, hr]

lemma emLoop_lengths (y : Mat) (N D : ℕ) (cfg : EMConfig) (pr : Vec) (K : ℕ) :
    ∀ fuel iterations st prev_ll,
      cfg.max_em_iterations - iterations = fuel →
      st.weight.length = K → st.responsibility.length = K →
      (emLoop y N D cfg pr iterations st prev_ll).1.weight.length = K := by
  intro fuel
  induction fuel with
  | zero =>
    intro iterations st prev_ll hf hw hr
    rw [emLoop, if_pos (Or.inr (by omega : iterations + 1 ≥ cfg.max_em_iterations))]
    exact (emStep_lengths y N D cfg pr st K hw hr).1
  | succ n ih =>
    intro iterations st prev_ll hf hw hr
    rw [emLoop]
    by_cases hc : |((emStep y N D cfg pr st).lls - prev_ll) / prev_ll| ≤ cfg.threshold
        ∨ iterations + 1 ≥ cfg.max_em_iterations
    · rw [if_pos hc]
      exact (emStep_lengths y N D cfg pr st K hw hr).1
    · rw [if_neg hc]
      have hs := emStep_lengths y N D cfg pr st K hw hr
      exact ih (iterations + 1) (emStep y N D cfg pr st).state
        (emStep y N D cfg pr st).lls (by push_neg at hc; omega) hs.1 hs.2.1

lemma emLoop_iters_le (y : Mat) (N D : ℕ) (cfg : EMConfig) (pr : Vec) :
    ∀ fuel iterations st prev_ll,
      cfg.max_em_iterations - iterations = fuel →
      (emLoop y N D cfg pr iterations st prev_ll).2.1
        ≤ max (iterations + 1) cfg.max_em_iterations := by
  intro fuel
  induction fuel with
  | zero =>
    intro iterations st prev_ll hf
    rw [emLoop, if_pos (Or.inr (by omega : iterations + 1 ≥ cfg.max_em_iterations))]
    simp
  | succ n ih =>
    intro iterations st prev_ll hf
    rw [emLoop]
    by_cases hc : |((emStep y N D cfg pr st).lls - prev_ll) / prev_ll| ≤ cfg.threshold
        ∨ iterations + 1 ≥ cfg.max_em_iterations
    · rw [if_pos hc]
      simp
    · rw [if_neg hc]
      have h2 := ih (iterations + 1) (emStep y N D cfg pr st).state
        (emStep y N D cfg pr st).lls (by push_neg at hc; omega)
      have h3 : max (iterations + 1 + 1) cfg.max_em_iterations
          = max (iterations + 1) cfg.max_em_iterations := by
        push_neg at hc
        omega
      omega

lemma expectation_maximization_weight_length (y : Mat) (N D : ℕ)
    (cfg : EMConfig) (pr : Vec) (mu : List Vec) (cov : List Mat)
    (weight : List ℝ) (respOpt : Option (List Vec)) (K : ℕ)
    (hw : weight.length = K) (hmu : mu.length = K)
    (hro : ∀ r, respOpt = some r → r.length = K) :
    (expectation_maximization y N D cfg pr mu cov weight respOpt).weight.length
      = K := by
  have hresp : (respOpt.getD (expectation y N D mu cov weight).responsibility).length
      = K := by
    cases respOpt with
    | none => simp [expectation, responsibility_matrix, hmu]
    | some r => simpa using hro r rfl
  simpa [expectation_maximization] using
    emLoop_lengths y N D cfg pr K (cfg.max_em_iterations - 1) 1
      ⟨mu, cov, weight, respOpt.getD (expectation y N D mu cov weight).responsibility⟩
      (∑ i in Finset.range N, (expectation y N D mu cov weight).log_likelihood i)
      rfl hw hresp

/-- Claim C7: for every positive threshold and every iteration cap of at
least 1, the EM loop terminates: the final iteration count never exceeds
`max(2, max_em_iterations)` (the loop body runs at least once, so two
E-steps are always consumed), the `warnflag` metadata flag is set exactly
when the cap was reached, and the loop stops immediately when the first
relative change in summed log-likelihood is at most the threshold.  The
function is total — reaching the cap returns normally rather than raising. -/
theorem expectation_maximization_terminates (y : Mat) (N D : ℕ)
    (cfg : EMConfig) (pr : Vec) (mu : List Vec) (cov : List Mat)
    (weight : List ℝ) (respOpt : Option (List Vec))
    (hmax : 1 ≤ cfg.max_em_iterations) (hthr : 0 < cfg.threshold) :
    (expectation_maximization y N D cfg pr mu cov weight respOpt).iterations
        ≤ max 2 cfg.max_em_iterations
      ∧ ((expectation_maximization y N D cfg pr mu cov weight respOpt).warnflag
          = true
        ↔ cfg.max_em_iterations
          ≤ (expectation_maximization y N D cfg pr mu cov weight respOpt).iterations)
      ∧ (em_first_rel y N D cfg pr mu cov weight respOpt ≤ cfg.threshold →
          (expectation_maximization y N D cfg pr mu cov weight respOpt).iterations
            = 2) := by
  refine ⟨?_, ?_, ?_⟩
  · have h := emLoop_iters_le y N D cfg pr (cfg.max_em_iterations - 1) 1
      ⟨mu, cov, weight,
        respOpt.getD (expectation y N D mu cov weight).responsibility⟩
      (∑ i in Finset.range N, (expectation y N D mu cov weight).log_likelihood i)
      rfl
    simpa [expectation_maximization] using h
  · simp [expectation_maximization]
  · intro h
    have h2 : |((emStep y N D cfg pr
        ⟨mu, cov, weight,
          respOpt.getD (expectation y N D mu cov weight).responsibility⟩).lls
            - ∑ i in Finset.range N,
                (expectation y N D mu cov weight).log_likelihood i)
          / ∑ i in Finset.range N,
              (expectation y N D mu cov weight).log_likelihood i|
        ≤ cfg.threshold := by
      simpa [em_first_rel] using h
    simp only [expectation_maximization]
    rw [emLoop, if_pos (Or.inl h2)]

/-- Witness for claim C7 at a concrete input with iteration cap 1. -/
theorem expectation_maximization_terminates_witness :
    1 ≤ cfgW.max_em_iterations ∧ (0 : ℝ) < cfgW.threshold
      ∧ ((expectation_maximization yZero 1 1 cfgW vone [zeroVec] [matOne] [1]
            none).iterations ≤ max 2 cfgW.max_em_iterations
        ∧ ((expectation_maximization yZero 1 1 cfgW vone [zeroVec] [matOne] [1]
            none).warnflag = true
          ↔ cfgW.max_em_iterations
            ≤ (expectation_maximization yZero 1 1 cfgW vone [zeroVec] [matOne] [1]
              none).iterations)
        ∧ (em_first_rel yZero 1 1 cfgW vone [zeroVec] [matOne] [1] none
              ≤ cfgW.threshold →
            (expectation_maximization yZero 1 1 cfgW vone [zeroVec] [matOne] [1]
              none).iterations = 2)) :=
  ⟨by norm_num [cfgW], by norm_num [cfgW],
    expectation_maximization_terminates yZero 1 1 cfgW vone [zeroVec] [matOne]
      [1] none (by norm_num [cfgW]) (by norm_num [cfgW])⟩

lemma set_append_getD_self {α : Type} (l : List α) (a b d : α) (i : ℕ)
    (h : i < l.length) : ((l ++ [b]).set i a).getD i d = a := by
  have h2 : i < ((l ++ [b]).set i a).length := by
    simp
    omega
  rw [List.getD_eq_getElem _ _ h2, List.getElem_set_self]

lemma set_append_getD_last {α : Type} (l : List α) (a b d : α) (i : ℕ)
    (h : i < l.length) : ((l ++ [b]).set i a).getD l.length d = b := by
  have h2 : l.length < ((l ++ [b]).set i a).length := by
    simp
  rw [List.getD_eq_getElem _ _ h2,
    List.getElem_set_ne (by omega : i ≠ l.length),
    List.getElem_concat_length]
  rfl

/-- Claim C4: for every mixture, `split_component(index)` returns a mixture
with `K + 1` components (for `K = 1` that is exactly 2 components, via the
direct two-child EM branch), and for `K > 1` the spliced pre-EM mixture has
child A installed at position `index` (mean `mu0`, weight
`parent_weight * w0`) and child B appended as the last component (mean `mu1`,
weight `parent_weight * w1`). -/
theorem split_component_spec (svd : SvdFun) (y : Mat) (N D : ℕ)
    (cfg : EMConfig) (mu : List Vec) (cov : List Mat) (weight : List ℝ)
    (responsibility : List Vec) (index : ℕ) (K : ℕ)
    (hw : weight.length = K) (hmu : mu.length = K)
    (hr : responsibility.length = K) (hK : 1 ≤ K) (hidx : index < K) :
    (split_component svd y N D cfg mu cov weight responsibility index).weight.length
        = K + 1
      ∧ (1 < K →
          (split_splice svd y N D cfg.covariance_regularization mu cov weight
              responsibility index).mu.getD index zeroVec
            = (split_children svd y N D cfg.covariance_regularization mu cov
                index).mu0
          ∧ (split_splice svd y N D cfg.covariance_regularization mu cov weight
              responsibility index).mu.getD K zeroVec
            = (split_children svd y N D cfg.covariance_regularization mu cov
                index).mu1
          ∧ (split_splice svd y N D cfg.covariance_regularization mu cov weight
              responsibility index).weight.getD index 0
            = weight.getD index 0
              * (split_children svd y N D cfg.covariance_regularization mu cov
                index).w0
          ∧ (split_splice svd y N D cfg.covariance_regularization mu cov weight
              responsibility index).weight.getD K 0
            = weight.getD index 0
              * (split_children svd y N D cfg.covariance_regularization mu cov
                index).w1) := by
  constructor
  · by_cases hM : 1 < weight.length
    · simp only [split_component, if_pos hM]
      refine expectation_maximization_weight_length y N D cfg _ _ _ _ _ (K + 1)
        ?_ ?_ ?_
      · simp [split_splice, hw]
      · simp [split_splice, hmu]
      · intro r hsome
        have : (split_splice svd y N D cfg.covariance_regularization mu cov
            weight responsibility index).responsibility = r := by
          exact Option.some_injective _ hsome
        rw [← this]
        simp [split_splice, hr]
    · have hK1 : K = 1 := by omega
      simp only [split_component, if_neg hM]
      rw [expectation_maximization_weight_length y N D cfg _ _ _ _ _ 2
        (by simp) (by simp) (fun r hsome => by
          have := Option.some_injective _ hsome
          rw [← this]
          simp)]
      omega
  · intro hK2
    refine ⟨?_, ?_, ?_, ?_⟩
    · exact set_append_getD_self mu _ _ _ index (by omega)
    · have := set_append_getD_last mu
        (split_children svd y N D cfg.covariance_regularization mu cov index).mu0
        (split_children svd y N D cfg.covariance_regularization mu cov index).mu1
        zeroVec index (by omega)
      rw [hmu] at this
      exact this
    · exact set_append_getD_self weight _ _ _ index (by omega)
    · have := set_append_getD_last weight
        (weight.getD index 0
          * (split_children svd y N D cfg.covariance_regularization mu cov index).w0)
        (weight.getD index 0
          * (split_children svd y N D cfg.covariance_regularization mu cov index).w1)
        0 index (by omega)
      rw [hw] at this
      exact this

/-- Witness for claim C4 at a concrete single-component input (`K = 1`), the
case the spec singles out: the result has exactly 2 components. -/
theorem split_component_spec_witness :
    ([(1 : ℝ)] : List ℝ).length = 1 ∧ ([zeroVec] : List Vec).length = 1
      ∧ ([vone] : List Vec).length = 1 ∧ 1 ≤ 1 ∧ 0 < 1
      ∧ (split_component svdTriv yZero 1 1 cfgW3 [zeroVec] [matOne] [1] [vone]
          0).weight.length = 1 + 1 :=
  ⟨by simp, by simp, by simp, le_refl 1, Nat.zero_lt_one,
    (split_component_spec svdTriv yZero 1 1 cfgW3 [zeroVec] [matOne] [1] [vone]
      0 1 (by simp) (by simp) (by simp) (le_refl 1) Nat.zero_lt_one).1⟩

/-- Claim C5: for every mixture with `K ≥ 2` components and every valid
index, `delete_component` removes component `index` entirely, renormalizes
the remaining weights and responsibilities by `1/(1 - weight[index])`
(respectively `1/(1 - responsibility[index])` elementwise), clipping to
`[0, 1]` with non-finite entries zeroed, and re-runs EM on the resulting
`(K-1)`-component mixture. -/
theorem delete_component_spec (y : Mat) (N D : ℕ) (cfg : EMConfig)
    (mu : List Vec) (cov : List Mat) (weight : List ℝ)
    (responsibility : List Vec) (index : ℕ) (K : ℕ)
    (hw : weight.length = K) (hmu : mu.length = K)
    (hr : responsibility.length = K) (hK : 2 ≤ K) (hidx : index < K) :
    (delete_component y N D cfg mu cov weight responsibility index).weight.length
        = K - 1
      ∧ (delete_prep mu cov weight responsibility index).weight.length = K - 1
      ∧ (∀ j < K - 1,
          (delete_prep mu cov weight responsibility index).weight.getD j 0
            = clip01 ((weight.eraseIdx index).getD j 0
                / (1 - weight.getD index 0)))
      ∧ (∀ j < K - 1, ∀ i,
          ((delete_prep mu cov weight responsibility index).responsibility.getD
              j zeroVec) i
            = clipZeroDiv (((responsibility.eraseIdx index).getD j zeroVec) i)
                (1 - (responsibility.getD index zeroVec) i)) := by
  have hwe : (weight.eraseIdx index).length = K - 1 := by
    simp [List.length_eraseIdx, hw, hidx]
  have hre : (responsibility.eraseIdx index).length = K - 1 := by
    simp [List.length_eraseIdx, hr, hidx]
  refine ⟨?_, ?_, ?_, ?_⟩
  · simp only [delete_component]
    refine expectation_maximization_weight_length y N D cfg _ _ _ _ _ (K - 1)
      ?_ ?_ ?_
    · simp [delete_prep, hwe]
    · simp [delete_prep, List.length_eraseIdx, hmu, hidx]
    · intro r hsome
      rw [← Option.some_injective _ hsome]
      simp [delete_prep, hre]
  · simp [delete_prep, hwe]
  · intro j hj
    have hj2 : j < (weight.eraseIdx index).length := by omega
    simp only [delete_prep]
    rw [List.getD_eq_getElem _ _ (by simpa using hj2), List.getElem_map,
      List.getD_eq_getElem _ _ hj2]
  · intro j hj i
    have hj2 : j < (responsibility.eraseIdx index).length := by omega
    simp only [delete_prep]
    rw [List.getD_eq_getElem _ _ (by simpa using hj2), List.getElem_map,
      List.getD_eq_getElem _ _ hj2]

/-- Witness for claim C5 at a concrete two-component input. -/
theorem delete_component_spec_witness :
    ([(1 : ℝ) / 2, 1 / 2] : List ℝ).length = 2
      ∧ (0 : ℕ) < 2
      ∧ (delete_component yZero 1 1 cfgW3 [zeroVec, vone] [matOne, matOne]
          [1 / 2, 1 / 2] [vone, zeroVec] 0).weight.length = 2 - 1 :=
  ⟨by simp, by norm_num,
    (delete_component_spec yZero 1 1 cfgW3 [zeroVec, vone] [matOne, matOne]
      [1 / 2, 1 / 2] [vone, zeroVec] 0 2 (by simp) (by simp) (by simp)
      (le_refl 2) (by norm_num)).1⟩

lemma oLE_refl (a : Option ℝ) : oLE a a := by
  cases a <;> simp [oLE]

lemma oLE_of_not {a b : Option ℝ} (h : ¬ oLE a b) : oLE b a := by
  cases a <;> cases b <;> simp [oLE] at * <;> linarith

lemma oLE_trans {a b c : Option ℝ} (h1 : oLE a b) (h2 : oLE b c) : oLE a c := by
  cases a <;> cases b <;> cases c <;> simp [oLE] at * <;> linarith

lemma minOpt_le (l : List (Option ℝ)) : ∀ j < l.length, oLE (minOpt l) (l.getD j none) := by
  induction l with
  | nil => simp
  | cons x xs ih =>
    intro j hj
    cases j with
    | zero =>
      rw [List.getD_cons_zero, minOpt]
      split
      · exact oLE_refl x
      · next h => exact oLE_of_not h
    | succ j =>
      rw [List.getD_cons_succ, minOpt]
      have hj2 : j < xs.length := by simpa using hj
      split
      · next h => exact oLE_trans h (ih j hj2)
      · exact ih j hj2

lemma argminInf_lt_length (l : List (Option ℝ)) (h : l ≠ []) :
    argminInf l < l.length := by
  induction l with
  | nil => exact absurd rfl h
  | cons x xs ih =>
    rw [argminInf]
    split
    · simp
    · next hc =>
      have hxs : xs ≠ [] := by
        intro he
        subst he
        exact hc (by simp [minOpt, oLE])
      have := ih hxs
      simp only [List.length_cons]
      omega

lemma getD_argminInf (l : List (Option ℝ)) (h : l ≠ []) :
    l.getD (argminInf l) none = minOpt l := by
  induction l with
  | nil => exact absurd rfl h
  | cons x xs ih =>
    rw [argminInf, minOpt]
    split
    · simp
    · next hc =>
      have hxs : xs ≠ [] := by
        intro he
        subst he
        exact hc (by simp [minOpt, oLE])
      simpa using ih hxs

lemma merge_dkl_getD (svd : SvdFun) (D : ℕ) (mu : List Vec) (cov : List Mat)
    (weight : List ℝ) (index m : ℕ) (hm : m < weight.length) :
    (merge_dkl svd D mu cov weight index).getD m none
      = if m = index then none
        else some (kullback_leibler_mvn svd D (mu.getD index zeroVec)
            (cov.getD index (fun _ _ => 0)) (mu.getD m zeroVec)
            (cov.getD m (fun _ _ => 0))) := by
  have hm2 : m < (merge_dkl svd D mu cov weight index).length := by
    simpa [merge_dkl] using hm
  rw [List.getD_eq_getElem _ _ hm2]
  simp [merge_dkl]

lemma merge_dkl_length (svd : SvdFun) (D : ℕ) (mu : List Vec)
    (cov : List Mat) (weight : List ℝ) (index : ℕ) :
    (merge_dkl svd D mu cov weight index).length = weight.length := by
  simp [merge_dkl]

lemma merge_partner_props (svd : SvdFun) (D : ℕ) (mu : List Vec)
    (cov : List Mat) (weight : List ℝ) (index K : ℕ)
    (hw : weight.length = K) (hK : 2 ≤ K) (hidx : index < K) :
    merge_partner svd D mu cov weight index < K
      ∧ merge_partner svd D mu cov weight index ≠ index
      ∧ ∀ m < K, m ≠ index →
          kullback_leibler_mvn svd D (mu.getD index zeroVec)
            (cov.getD index (fun _ _ => 0))
            (mu.getD (merge_partner svd D mu cov weight index) zeroVec)
            (cov.getD (merge_partner svd D mu cov weight index) (fun _ _ => 0))
          ≤ kullback_leibler_mvn svd D (mu.getD index zeroVec)
              (cov.getD index (fun _ _ => 0))
              (mu.getD m zeroVec) (cov.getD m (fun _ _ => 0)) := by
  have hlen : (merge_dkl svd D mu cov weight index).length = K := by
    rw [merge_dkl_length, hw]
  have hne : merge_dkl svd D mu cov weight index ≠ [] := by
    intro h
    rw [h] at hlen
    simp at hlen
    omega
  have hblt : merge_partner svd D mu cov weight index < K := by
    rw [merge_partner, ← hlen]
    exact argminInf_lt_length _ hne
  have hm0lt : (if index = 0 then 1 else 0) < K := by split <;> omega
  have hm0ne : (if index = 0 then 1 else 0) ≠ index := by split <;> omega
  have hentry0 : (merge_dkl svd D mu cov weight index).getD
      (if index = 0 then 1 else 0) none
      = some (kullback_leibler_mvn svd D (mu.getD index zeroVec)
          (cov.getD index (fun _ _ => 0))
          (mu.getD (if index = 0 then 1 else 0) zeroVec)
          (cov.getD (if index = 0 then 1 else 0) (fun _ _ => 0))) := by
    rw [merge_dkl_getD svd D mu cov weight index _ (by omega), if_neg hm0ne]
  have hle0 := minOpt_le (merge_dkl svd D mu cov weight index)
    (if index = 0 then 1 else 0) (by omega)
  obtain ⟨v, hv⟩ : ∃ v, minOpt (merge_dkl svd D mu cov weight index) = some v := by
    cases hmo : minOpt (merge_dkl svd D mu cov weight index) with
    | some v => exact ⟨v, rfl⟩
    | none =>
      rw [hmo, hentry0] at hle0
      exact absurd hle0 (by simp [oLE])
  have hbentry : (merge_dkl svd D mu cov weight index).getD
      (merge_partner svd D mu cov weight index) none = some v := by
    rw [merge_partner, getD_argminInf _ hne, hv]
  have hbne : merge_partner svd D mu cov weight index ≠ index := by
    intro he
    rw [he, merge_dkl_getD svd D mu cov weight index index (by omega),
      if_pos rfl] at hbentry
    exact Option.noConfusion hbentry
  have hbval : kullback_leibler_mvn svd D (mu.getD index zeroVec)
      (cov.getD index (fun _ _ => 0))
      (mu.getD (merge_partner svd D mu cov weight index) zeroVec)
      (cov.getD (merge_partner svd D mu cov weight index) (fun _ _ => 0)) = v := by
    rw [merge_dkl_getD svd D mu cov weight index _ (by omega),
      if_neg hbne] at hbentry
    exact Option.some.inj hbentry
  refine ⟨hblt, hbne, ?_⟩
  intro m hm hmne
  have hlem := minOpt_le (merge_dkl svd D mu cov weight index) m (by omega)
  rw [hv, merge_dkl_getD svd D mu cov weight index m (by omega),
    if_neg hmne] at hlem
  simp only [oLE] at hlem
  rw [hbval]
  exact hlem

/-- Claim C6: for every mixture with `K ≥ 2` components and every valid
index, `merge_component` selects as partner the other component minimizing
the directional Kullback-Leibler divergence with component `index` as
reference, installs the merged component (summed weight, summed
responsibilities) at the lower of the two indices after deleting the
higher-indexed one, and returns a mixture with `K - 1` components. -/
theorem merge_component_spec (svd : SvdFun) (y : Mat) (N D : ℕ)
    (cfg : EMConfig) (mu : List Vec) (cov : List Mat) (weight : List ℝ)
    (responsibility : List Vec) (index K : ℕ)
    (hw : weight.length = K) (hmu : mu.length = K) (hcov : cov.length = K)
    (hr : responsibility.length = K) (hK : 2 ≤ K) (hidx : index < K) :
    merge_partner svd D mu cov weight index ≠ index
      ∧ merge_partner svd D mu cov weight index < K
      ∧ (∀ m < K, m ≠ index →
          kullback_leibler_mvn svd D (mu.getD index zeroVec)
            (cov.getD index (fun _ _ => 0))
            (mu.getD (merge_partner svd D mu cov weight index) zeroVec)
            (cov.getD (merge_partner svd D mu cov weight index) (fun _ _ => 0))
          ≤ kullback_leibler_mvn svd D (mu.getD index zeroVec)
              (cov.getD index (fun _ _ => 0))
              (mu.getD m zeroVec) (cov.getD m (fun _ _ => 0)))
      ∧ (∃ st, merge_prep svd y N D cfg.covariance_regularization mu cov weight
            responsibility index = some st
          ∧ st.weight
            = (weight.eraseIdx
                (max index (merge_partner svd D mu cov weight index))).set
              (min index (merge_partner svd D mu cov weight index))
              (weight.getD index 0
                + weight.getD (merge_partner svd D mu cov weight index) 0)
          ∧ st.responsibility
            = (responsibility.eraseIdx
                (max index (merge_partner svd D mu cov weight index))).set
              (min index (merge_partner svd D mu cov weight index))
              (fun i => (responsibility.getD index zeroVec) i
                + (responsibility.getD (merge_partner svd D mu cov weight index)
                    zeroVec) i)
          ∧ st.weight.length = K - 1)
      ∧ (∀ res, merge_component svd y N D cfg mu cov weight responsibility index
            = some res → res.weight.length = K - 1)
      ∧ (merge_component svd y N D cfg mu cov weight responsibility index).isSome
          = true := by
  obtain ⟨hblt, hbne, hmin⟩ :=
    merge_partner_props svd D mu cov weight index K hw hK hidx
  have hmaxlt : max index (merge_partner svd D mu cov weight index) < K := by
    omega
  have hminlt : min index (merge_partner svd D mu cov weight index) < K - 1 := by
    omega
  have h1 : min index (merge_partner svd D mu cov weight index)
      < (mu.eraseIdx (max index (merge_partner svd D mu cov weight index))).length := by
    rw [List.length_eraseIdx, if_pos (by omega), hmu]
    omega
  have h2 : min index (merge_partner svd D mu cov weight index)
      < (cov.eraseIdx (max index (merge_partner svd D mu cov weight index))).length := by
    rw [List.length_eraseIdx, if_pos (by omega), hcov]
    omega
  have h3 : min index (merge_partner svd D mu cov weight index)
      < (weight.eraseIdx (max index (merge_partner svd D mu cov weight index))).length := by
    rw [List.length_eraseIdx, if_pos (by omega), hw]
    omega
  have h4 : min index (merge_partner svd D mu cov weight index)
      < (responsibility.eraseIdx
          (max index (merge_partner svd D mu cov weight index))).length := by
    rw [List.length_eraseIdx, if_pos (by omega), hr]
    omega
  have hprep : ∃ st, merge_prep svd y N D cfg.covariance_regularization mu cov
        weight responsibility index = some st
      ∧ st.weight
        = (weight.eraseIdx
            (max index (merge_partner svd D mu cov weight index))).set
          (min index (merge_partner svd D mu cov weight index))
          (weight.getD index 0
            + weight.getD (merge_partner svd D mu cov weight index) 0)
      ∧ st.responsibility
        = (responsibility.eraseIdx
            (max index (merge_partner svd D mu cov weight index))).set
          (min index (merge_partner svd D mu cov weight index))
          (fun i => (responsibility.getD index zeroVec) i
            + (responsibility.getD (merge_partner svd D mu cov weight index)
                zeroVec) i)
      ∧ st.weight.length = K - 1
      ∧ st.mu.length = K - 1
      ∧ st.responsibility.length = K - 1 := by
    simp only [merge_prep, setChecked]
    rw [if_pos h1, if_pos h2, if_pos h3, if_pos h4]
    refine ⟨_, rfl, rfl, rfl, ?_, ?_, ?_⟩
    · rw [List.length_set, List.length_eraseIdx, if_pos (by omega), hw]
    · rw [List.length_set, List.length_eraseIdx, if_pos (by omega), hmu]
    · rw [List.length_set, List.length_eraseIdx, if_pos (by omega), hr]
  obtain ⟨st, hst, hwst, hrst, hlw, hlm, hlr⟩ := hprep
  refine ⟨hbne, hblt, hmin, ⟨st, hst, hwst, hrst, hlw⟩, ?_, ?_⟩
  · intro res hres
    simp only [merge_component, hst, Option.map_some'] at hres
    rw [← Option.some.inj hres]
    exact expectation_maximization_weight_length y N D cfg _ _ _ _ _ (K - 1)
      hlw hlm (fun r hsome => by rw [← Option.some_injective _ hsome]; exact hlr)
  · simp [merge_component, hst]

/-- Witness for claim C6 at a concrete two-component input. -/
theorem merge_component_spec_witness :
    ([(1 : ℝ) / 2, 1 / 2] : List ℝ).length = 2 ∧ (0 : ℕ) < 2
      ∧ merge_partner svdTriv 1 [zeroVec, vone] [matOne, matOne] [1 / 2, 1 / 2] 0
          ≠ 0
      ∧ (merge_component svdTriv yZero 1 1 cfgW3 [zeroVec, vone]
          [matOne, matOne] [1 / 2, 1 / 2] [vone, zeroVec] 0).isSome = true :=
  ⟨by simp, by norm_num,
    (merge_component_spec svdTriv yZero 1 1 cfgW3 [zeroVec, vone]
      [matOne, matOne] [1 / 2, 1 / 2] [vone, zeroVec] 0 2 (by simp) (by simp)
      (by simp) (by simp) (le_refl 2) (by norm_num)).1,
    (merge_component_spec svdTriv yZero 1 1 cfgW3 [zeroVec, vone]
      [matOne, matOne] [1 / 2, 1 / 2] [vone, zeroVec] 0 2 (by simp) (by simp)
      (by simp) (by simp) (le_refl 2) (by norm_num)).2.2.2.2.2⟩

/-- Claim C10: for a mixture with exactly one component,
`merge_component(index=0)` never returns a result: the single Kullback-Leibler
entry is infinite, so `np.nanargmin` selects component 0 as its own merge
partner, and after deleting index 0 the merged parameters are written into a
zero-component array — an out-of-bounds write, modelled as `none`. -/
theorem merge_component_single_component_fails (svd : SvdFun) (y : Mat)
    (N D : ℕ) (cfg : EMConfig) (mu : List Vec) (cov : List Mat)
    (weight : List ℝ) (responsibility : List Vec)
    (hw : weight.length = 1) (hmu : mu.length = 1) :
    merge_partner svd D mu cov weight 0 = 0
      ∧ merge_component svd y N D cfg mu cov weight responsibility 0 = none := by
  have hdkl : merge_dkl svd D mu cov weight 0 = [none] := by
    simp [merge_dkl, hw, List.range_succ]
  have hpartner : merge_partner svd D mu cov weight 0 = 0 := by
    rw [merge_partner, hdkl, argminInf]
    rw [if_pos (by simp [minOpt, oLE])]
  have hmu0 : mu.eraseIdx 0 = [] := by
    cases mu with
    | nil => simp at hmu
    | cons a t =>
      simp at hmu
      simp [List.eraseIdx, hmu]
  refine ⟨hpartner, ?_⟩
  simp only [merge_component, merge_prep, hpartner, setChecked, max_self,
    min_self]
  rw [hmu0]
  simp

/-- Witness for claim C10 at a concrete single-component input. -/
theorem merge_component_single_component_fails_witness :
    ([(1 : ℝ)] : List ℝ).length = 1
      ∧ merge_component svdTriv yZero 1 1 cfgW3 [zeroVec] [matOne] [1] [vone] 0
        = none :=
  ⟨by simp,
    (merge_component_single_component_fails svdTriv yZero 1 1 cfgW3 [zeroVec]
      [matOne] [1] [vone] (by simp) (by simp)).2⟩

/-- Claim C1: for every dataset `y`, components (means, covariances) and
strictly positive weights, each data point's responsibilities over the `K ≥ 1`
components sum to 1 within `1e-9`.  (Positive definiteness of the covariance
matrices is not even needed in the real-number model: the normalization is
exact for arbitrary real weighted log-probabilities.) -/
theorem responsibility_matrix_rows_sum_one (y : Mat) (D : ℕ) (mu : List Vec)
    (cov : List Mat) (weight : List ℝ) (i : ℕ)
    (hK : 1 ≤ mu.length)
    (hw : ∀ k < mu.length, 0 < weight.getD k 0) :
    |(((responsibility_matrix y D mu cov weight).1.map fun r => r i).sum) - 1|
      ≤ 1e-9 := by
  have hS : 0 < ∑ j in Finset.range mu.length,
      Real.exp (weighted_log_prob y D mu cov weight i j) :=
    Finset.sum_pos (fun j _ => Real.exp_pos _)
      (by
        simp only [Finset.nonempty_range_iff]
        omega)
  have hsum :
      (((responsibility_matrix y D mu cov weight).1.map fun r => r i).sum) = 1 := by
    simp only [responsibility_matrix, List.map_map, Function.comp_def]
    rw [list_sum_map_range]
    have hterm : ∀ k,
        Real.exp (weighted_log_prob y D mu cov weight i k
            - log_likelihood_point y D mu cov weight i)
          = Real.exp (weighted_log_prob y D mu cov weight i k)
            / ∑ j in Finset.range mu.length,
                Real.exp (weighted_log_prob y D mu cov weight i j) := by
      intro k
      rw [log_likelihood_point, Real.exp_sub, Real.exp_log hS]
    simp only [hterm]
    rw [← Finset.sum_div, div_self (ne_of_gt hS)]
  rw [hsum]
  norm_num

/-- Witness for claim C1 at a concrete one-point, one-component input. -/
theorem responsibility_matrix_rows_sum_one_witness :
    1 ≤ ([zeroVec] : List Vec).length
      ∧ |((((responsibility_matrix yZero 1 [zeroVec] [matOne] [1]).1.map
          fun r => r 0).sum) - 1)| ≤ 1e-9 :=
  ⟨by simp,
    responsibility_matrix_rows_sum_one yZero 1 [zeroVec] [matOne] [1] 0 (by simp)
      (by
        intro k hk
        have hk0 : k = 0 := by simpa using hk
        subst hk0
        norm_num)⟩

/-- Claim C2: for every valid responsibility matrix (entrywise non-negative,
each data point's responsibilities summing to 1 over the `M ≥ 1` components),
the weight vector produced by the maximization step equals
`(effective_membership + 0.5)/(N + M/2)` componentwise, sums to 1 within
`1e-9`, and every entry is strictly positive. -/
theorem maximization_weight_normalized (y : Mat) (N : ℕ) (reg : ℝ) (pr : Vec)
    (mu : List Vec) (cov : List Mat) (weight : List ℝ)
    (responsibility : List Vec)
    (hM : 1 ≤ weight.length)
    (hlen : responsibility.length = weight.length)
    (hnn : ∀ r ∈ responsibility, ∀ i, 0 ≤ r i)
    (hcol : ∀ i < N, ((responsibility.map fun r => r i).sum) = 1) :
    (∀ m < (maximization y N reg pr mu cov weight responsibility).2.2.length,
        (maximization y N reg pr mu cov weight responsibility).2.2.getD m 0
          = (vsum N (responsibility.getD m zeroVec) + 0.5)
            / ((N : ℝ) + (weight.length : ℝ) / 2))
      ∧ |(maximization y N reg pr mu cov weight responsibility).2.2.sum - 1| ≤ 1e-9
      ∧ ∀ m < (maximization y N reg pr mu cov weight responsibility).2.2.length,
          0 < (maximization y N reg pr mu cov weight responsibility).2.2.getD m 0 := by
  have hC : (0 : ℝ) < (N : ℝ) + (weight.length : ℝ) / 2 := by
    have h1 : (1 : ℝ) ≤ (weight.length : ℝ) := by exact_mod_cast hM
    positivity
  refine ⟨?_, ?_, ?_⟩
  · intro m hm
    have hm2 : m < responsibility.length := by
      simpa [maximization] using hm
    simp only [maximization]
    rw [List.getD_eq_getElem _ _ (by simpa using hm2), List.getElem_map,
      List.getD_eq_getElem _ _ hm2]
  · simp only [maximization]
    have h1 : (responsibility.map fun r =>
        (vsum N r + 0.5) / ((N : ℝ) + (weight.length : ℝ) / 2)).sum = 1 := by
      rw [list_sum_map_div, list_sum_map_add_half, list_sum_vsum_swap]
      have hN : ∑ i in Finset.range N, (responsibility.map fun r => r i).sum
          = (N : ℝ) := by
        rw [Finset.sum_congr rfl fun i hi => hcol i (Finset.mem_range.mp hi)]
        simp
      rw [hN, hlen, div_eq_one_iff_eq (ne_of_gt hC)]
      ring
    rw [h1]
    norm_num
  · intro m hm
    have hm2 : m < responsibility.length := by
      simpa [maximization] using hm
    simp only [maximization]
    rw [List.getD_eq_getElem _ _ (by simpa using hm2), List.getElem_map]
    have hr : ∀ i, 0 ≤ responsibility[m] i :=
      hnn _ (List.getElem_mem hm2)
    have hv : 0 ≤ vsum N responsibility[m] :=
      Finset.sum_nonneg fun i _ => hr i
    have hnum : 0 < vsum N responsibility[m] + 0.5 := by linarith
    exact div_pos hnum hC

/-- Witness for claim C2 at a concrete one-point, one-component input. -/
theorem maximization_weight_normalized_witness :
    1 ≤ ([(1 : ℝ)] : List ℝ).length
      ∧ |(maximization yZero 1 0 vone [zeroVec] [matOne] [1] [vone]).2.2.sum - 1|
        ≤ 1e-9 := by
  refine ⟨by simp, ?_⟩
  have h := maximization_weight_normalized yZero 1 0 vone [zeroVec] [matOne] [1] [vone]
    (by simp) (by simp)
    (by
      intro r hr i
      have : r = vone := by simpa using hr
      subst this
      norm_num [vone])
    (by
      intro i hi
      simp [vone])
  exact h.2.1

/-- Claim C9 (code bug witness): the source's own docstring documents
`covariance_type ∈ {full, diag}`, and the module provides complete `diag`
code paths (`_estimate_covariance_matrix_diag`, the `diag` branches of
`_compute_precision_cholesky` and `_parameters_per_mixture`), yet
`GaussianMixture.__init__` sets `available = ("full",)` and therefore raises
`ValueError` on `covariance_type="diag"` with an otherwise perfectly valid
configuration. -/
theorem gaussianMixtureInit_rejects_diag :
    gaussianMixtureInit "diag" 0 (1 / 100000) 10000 = none
      ∧ gaussianMixtureInit "full" 0 (1 / 100000) 10000
        = some ⟨"full", 0, 1 / 100000, 10000⟩ := by
  have hd : pyLower (pyStrip "diag") = "diag" := by decide
  have hf : pyLower (pyStrip "full") = "full" := by decide
  constructor
  · simp [gaussianMixtureInit, hd]
  · simp only [gaussianMixtureInit, hf]
    norm_num

/-- Claim C8 (counterexample): the spec's literal divisor
`max(effective_membership[m] - 1, effective_membership[m])` always equals
`effective_membership[m]`, but the code divides by `effective_membership[m] - 1`
whenever the effective membership exceeds 1.  With two data points `0` and `2`
fully assigned to a single component with mean `1` and no regularization, the
code returns variance `2` (divisor `1`), while the spec's literal formula
returns `1` (divisor `2`). -/
theorem estimate_covariance_full_max_divisor_counterexample :
    ((estimate_covariance_matrix_full yC8 2 meanC8 respC8 0).getD 0
        (fun _ _ => 0)) 0 0 = 2
      ∧ ((estimate_covariance_matrix_full_specMax yC8 2 meanC8 respC8 0).getD 0
        (fun _ _ => 0)) 0 0 = 1 := by
  have hv : vsum 2 (fun _ : ℕ => (1 : ℝ)) = 2 := by
    norm_num [vsum, Finset.sum_range_succ]
  constructor
  · simp only [estimate_covariance_matrix_full, meanC8, respC8,
      List.zip_cons_cons, List.zip_nil_right, List.map_cons, List.map_nil,
      List.getD_cons_zero]
    rw [hv, if_pos (by norm_num : (2 : ℝ) > 1)]
    norm_num [yC8, Finset.sum_range_succ]
  · simp only [estimate_covariance_matrix_full_specMax, meanC8, respC8,
      List.zip_cons_cons, List.zip_nil_right, List.map_cons, List.map_nil,
      List.getD_cons_zero]
    rw [hv]
    norm_num [yC8, Finset.sum_range_succ]

/-- Claim C8 (amended): for every component `m`, the full-covariance estimator
computes the responsibility-weighted empirical covariance of `y` about
`mean[m]` divided by `effective_membership[m] - 1` when the effective
membership exceeds 1 and by the uncorrected divisor `effective_membership[m]`
otherwise, and then adds `regularization * I` to the diagonal. -/
theorem estimate_covariance_full_divisor (y : Mat) (N : ℕ)
    (mean responsibility : List Vec) (reg : ℝ) (m i j : ℕ)
    (hm : m < (mean.zip responsibility).length) :
    ((estimate_covariance_matrix_full y N mean responsibility reg).getD m
        (fun _ _ => 0)) i j
      = (∑ p in Finset.range N,
            ((mean.zip responsibility).getD m (fun _ => 0, fun _ => 0)).2 p
            * (y p i - ((mean.zip responsibility).getD m (fun _ => 0, fun _ => 0)).1 i)
            * (y p j - ((mean.zip responsibility).getD m (fun _ => 0, fun _ => 0)).1 j))
          / (if vsum N ((mean.zip responsibility).getD m (fun _ => 0, fun _ => 0)).2 > 1
              then vsum N ((mean.zip responsibility).getD m (fun _ => 0, fun _ => 0)).2 - 1
              else vsum N ((mean.zip responsibility).getD m (fun _ => 0, fun _ => 0)).2)
        + reg * (if i = j then 1 else 0) := by
  have hm2 : m < (estimate_covariance_matrix_full y N mean responsibility reg).length := by
    simpa [estimate_covariance_matrix_full] using hm
  rw [List.getD_eq_getElem _ _ hm2, List.getD_eq_getElem _ _ hm]
  simp only [estimate_covariance_matrix_full, List.getElem_map]

/-- Witness for the amended claim C8 at a concrete input. -/
theorem estimate_covariance_full_divisor_witness :
    (0 : ℕ) < (meanC8.zip respC8).length
      ∧ ((estimate_covariance_matrix_full yC8 2 meanC8 respC8 0).getD 0
          (fun _ _ => 0)) 0 0
        = (∑ p in Finset.range 2,
              ((meanC8.zip respC8).getD 0 (fun _ => 0, fun _ => 0)).2 p
              * (yC8 p 0 - ((meanC8.zip respC8).getD 0 (fun _ => 0, fun _ => 0)).1 0)
              * (yC8 p 0 - ((meanC8.zip respC8).getD 0 (fun _ => 0, fun _ => 0)).1 0))
            / (if vsum 2 ((meanC8.zip respC8).getD 0 (fun _ => 0, fun _ => 0)).2 > 1
                then vsum 2 ((meanC8.zip respC8).getD 0 (fun _ => 0, fun _ => 0)).2 - 1
                else vsum 2 ((meanC8.zip respC8).getD 0 (fun _ => 0, fun _ => 0)).2)
          + 0 * (if (0 : ℕ) = 0 then 1 else 0) :=
  ⟨by simp [meanC8, respC8],
    estimate_covariance_full_divisor yC8 2 meanC8 respC8 0 0 0 0
      (by simp [meanC8, respC8])⟩

end Gmmmml
